import Mathlib

/-!
Verification of the transactional option store of `mitmproxy/optmanager.py`
(class `OptManager`): typed current values, defaults, transactional
`update`, rollback on `OptionsError`, and synchronous change notification.

The embedding below translates `optmanager.py` directly.  Collaborators that
the source imports from outside this file (`mitmproxy.utils.typecheck`,
`copy.deepcopy`, the `blinker` signal library) are modelled from the spec,
as marked on their definitions.
-/

set_option autoImplicit false

namespace Optmanager

/-- Python runtime values, as far as the option store manipulates them:
booleans, integers, strings, `None`, and lists.  (The spec's TypeChecker
also mentions floats, byte strings, sets, mappings and tuples; no claim
exercises those shapes and floating point is not modelled.) -/
inductive V where
  | vbool : Bool → V
  | vint : Int → V
  | vstr : String → V
  | vnone : V
  | vseq : List V → V
deriving Repr

mutual

/-- Structural equality on values (Python `==` / `!=`), mutually with
equality of value lists. -/
def V.beq : V → V → Bool
  | .vbool a, .vbool b => a == b
  | .vint a, .vint b => a == b
  | .vstr a, .vstr b => a == b
  | .vnone, .vnone => true
  | .vseq a, .vseq b => V.beqList a b
  | _, _ => false

/-- Structural equality on lists of values. -/
def V.beqList : List V → List V → Bool
  | [], [] => true
  | a :: as, b :: bs => V.beq a b && V.beqList as bs
  | _, _ => false

end

mutual

theorem V.beq_iff : ∀ a b : V, V.beq a b = true ↔ a = b
  | .vbool a, .vbool b => by simp [V.beq]
  | .vbool _, .vint _ => by simp [V.beq]
  | .vbool _, .vstr _ => by simp [V.beq]
  | .vbool _, .vnone => by simp [V.beq]
  | .vbool _, .vseq _ => by simp [V.beq]
  | .vint _, .vbool _ => by simp [V.beq]
  | .vint a, .vint b => by simp [V.beq]
  | .vint _, .vstr _ => by simp [V.beq]
  | .vint _, .vnone => by simp [V.beq]
  | .vint _, .vseq _ => by simp [V.beq]
  | .vstr _, .vbool _ => by simp [V.beq]
  | .vstr _, .vint _ => by simp [V.beq]
  | .vstr a, .vstr b => by simp [V.beq]
  | .vstr _, .vnone => by simp [V.beq]
  | .vstr _, .vseq _ => by simp [V.beq]
  | .vnone, .vbool _ => by simp [V.beq]
  | .vnone, .vint _ => by simp [V.beq]
  | .vnone, .vstr _ => by simp [V.beq]
  | .vnone, .vnone => by simp [V.beq]
  | .vnone, .vseq _ => by simp [V.beq]
  | .vseq _, .vbool _ => by simp [V.beq]
  | .vseq _, .vint _ => by simp [V.beq]
  | .vseq _, .vstr _ => by simp [V.beq]
  | .vseq _, .vnone => by simp [V.beq]
  | .vseq a, .vseq b => by
      simp only [V.beq, V.vseq.injEq]
      exact V.beqList_iff a b

theorem V.beqList_iff : ∀ a b : List V, V.beqList a b = true ↔ a = b
  | [], [] => by simp [V.beqList]
  | [], _ :: _ => by simp [V.beqList]
  | _ :: _, [] => by simp [V.beqList]
  | a :: as, b :: bs => by
      simp only [V.beqList, Bool.and_eq_true, List.cons.injEq]
      exact and_congr (V.beq_iff a b) (V.beqList_iff as bs)

end

instance : DecidableEq V := fun a b => decidable_of_iff _ (V.beq_iff a b)

/-- Python truthiness, used by `not` in `toggler`. -/
def truthy : V → Bool
  | .vbool b => b
  | .vint n => n != 0
  | .vstr s => s ≠ ""
  | .vnone => false
  | .vseq l => !l.isEmpty

/-- Modelled from the spec: type descriptors understood by
`mitmproxy.utils.typecheck` (not under `src/`): scalar kinds, optional-of-T,
sequence-of-T, and closed enumerations of literals.  Spec shapes not
exercised by any claim (floating point, byte strings, sets, mappings,
fixed tuples) are omitted. -/
inductive TypeD where
  | tbool : TypeD
  | tint : TypeD
  | tstr : TypeD
  | topt : TypeD → TypeD
  | tseq : TypeD → TypeD
  | tenum : List V → TypeD
deriving DecidableEq, Repr

/-- Modelled from the spec: `mitmproxy.utils.typecheck.check_type`
(not under `src/`).  Scalars must match exactly; an optional admits `None`
or a valid inner value; a sequence requires every element valid; a closed
enumeration requires the value to equal one of the literals.  Returns
`true` when the value conforms. -/
def check_type : TypeD → V → Bool
  | .tbool, .vbool _ => true
  | .tint, .vint _ => true
  | .tstr, .vstr _ => true
  | .topt _, .vnone => true
  | .topt t, v => check_type t v
  | .tseq t, .vseq l => l.all fun v => check_type t v
  | .tenum lits, v => lits.contains v
  | _, _ => false

/-- Association-list lookup, the dictionary read `d[k]` / `k in d`
(first match; keys are unique in every dictionary the model builds). -/
def alFind {α : Type} : List (String × α) → String → Option α
  | [], _ => none
  | (a, b) :: rest, k => if a = k then some b else alFind rest k

/-- Association-list single-key write `d[k] = v`: replaces the value at an
existing key in place, appends a fresh key at the end — Python dict
assignment semantics. -/
def alSet {α : Type} : List (String × α) → String → α → List (String × α)
  | [], k, v => [(k, v)]
  | (a, b) :: rest, k, v =>
      if a = k then (a, v) :: rest else (a, b) :: alSet rest k v

/-- Python `dict.update(kwargs)`: write each pair of `kw` into `d`, in
order. -/
def dictUpdate {α : Type} (d : List (String × α)) (kw : List (String × α)) :
    List (String × α) :=
  kw.foldl (fun o p => alSet o p.1 p.2) d

/-- The state of an `OptManager` instance: `opts` is `self._opts`
(current values), `defaults` is `self._defaults` (collected once in
`__new__` from constructor signature defaults), `types` records the
constructor annotation for each option when one exists
(`get_arg_type_from_constructor_annotation` returns `None` otherwise). -/
structure OptManager where
  opts : List (String × V)
  defaults : List (String × V)
  types : List (String × TypeD)
deriving DecidableEq, Repr

/-- `OptManager._typecheck`: look up the constructor annotation for
`attr`; with no type information the value passes, otherwise it must
satisfy `check_type`. -/
def typecheck_attr (types : List (String × TypeD)) (attr : String) (v : V) :
    Bool :=
  match alFind types attr with
  | none => true
  | some t => check_type t v

/-- Outcome of delivering an event to the subscriber chain: every
subscriber returned normally, or the chain raised
`exceptions.OptionsError` (with its message), or it raised an exception of
any other kind. -/
inductive SubRes where
  | ok : SubRes
  | optionsError : String → SubRes
  | otherError : SubRes
deriving DecidableEq, Repr

/-- Modelled from the spec: the `blinker` signals `changed` and `errored`
(the library is not under `src/`).  `send` delivers synchronously on the
calling thread and propagates the first exception a subscriber raises, so
at the transaction level a signal is its aggregate outcome: a function of
the payload (the sender's current `_opts`, plus the updated-key set for
`changed` or the error message for `errored`). -/
structure Behavior where
  onChanged : List (String × V) → List String → SubRes
  onErrored : List (String × V) → String → SubRes

/-- Exceptions that can escape the store's methods.  `unknownOption`
is the `KeyError("No such option: ...")` raised by `update`/`setter`/
`toggler` (the spec's `UnknownOptionError`); `attributeError` is the
`AttributeError` raised by `__getattr__`; `incompatibleType` is the error
`typecheck.check_type` raises on a mismatch (the spec's
`IncompatibleTypeError`); `optionsError` is `exceptions.OptionsError`
raised by a subscriber; `otherError` is any other exception kind. -/
inductive PyErr where
  | unknownOption : String → PyErr
  | attributeError : String → PyErr
  | incompatibleType : String → PyErr
  | optionsError : String → PyErr
  | otherError : PyErr
deriving DecidableEq, Repr

/-- One `send` call on a signal, as observable by its subscribers: the
event kind, the sender's `_opts` at delivery time (subscribers receive
`self` by reference), and the payload (`updated` key set, or the error
message for `errored`). -/
inductive Event where
  | changed : List (String × V) → List String → Event
  | errored : List (String × V) → String → Event
deriving DecidableEq, Repr

/-- Result of a call to `update` (or an operation built on it): the final
store state, the list of signal `send` calls it performed in order, and
the exception propagating to the caller, if any. -/
structure UpdResult where
  state : OptManager
  trace : List Event
  err : Option PyErr
deriving DecidableEq, Repr

/-- The validation loop at the top of `OptManager.update`: for each pair
in order, `if k not in self._opts: raise KeyError(...)` then
`self._typecheck(k, v)`; returns the first exception, or `none` when every
pair passes. -/
def validate (o : OptManager) : List (String × V) → Option PyErr
  | [] => none
  | (k, v) :: rest =>
      if (alFind o.opts k).isNone then some (.unknownOption k)
      else if ¬ typecheck_attr o.types k v then some (.incompatibleType k)
      else validate o rest

/-- `OptManager.update(**kwargs)` together with the inlined
`rollback(updated)` context manager.  Steps, as in the source: compute
`updated = set(kwargs.keys())`; validate every pair before any mutation;
snapshot `old = self._opts.copy()`; apply `self._opts.update(kwargs)`;
send `changed`.  If that send raises `OptionsError`, the context manager
first sends `errored` (the store still holding the updated values), then
restores `self._opts = old`, then sends `changed` again with the same
`updated` set and swallows the error; an exception raised by either of
those two sends propagates.  A non-`OptionsError` exception from the first
send propagates with no rollback. -/
def update (o : OptManager) (beh : Behavior) (kwargs : List (String × V)) :
    UpdResult :=
  let updated := kwargs.map Prod.fst
  match validate o kwargs with
  | some e => ⟨o, [], some e⟩
  | none =>
    let old := o.opts
    let newOpts := dictUpdate o.opts kwargs
    let o1 : OptManager := { o with opts := newOpts }
    match beh.onChanged newOpts updated with
    | .ok => ⟨o1, [.changed newOpts updated], none⟩
    | .otherError => ⟨o1, [.changed newOpts updated], some .otherError⟩
    | .optionsError msg =>
      match beh.onErrored newOpts msg with
      | .optionsError m2 =>
          ⟨o1, [.changed newOpts updated, .errored newOpts msg],
            some (.optionsError m2)⟩
      | .otherError =>
          ⟨o1, [.changed newOpts updated, .errored newOpts msg],
            some .otherError⟩
      | .ok =>
        let o2 : OptManager := { o with opts := old }
        match beh.onChanged old updated with
        | .ok =>
            ⟨o2, [.changed newOpts updated, .errored newOpts msg,
                  .changed old updated], none⟩
        | .optionsError m3 =>
            ⟨o2, [.changed newOpts updated, .errored newOpts msg,
                  .changed old updated], some (.optionsError m3)⟩
        | .otherError =>
            ⟨o2, [.changed newOpts updated, .errored newOpts msg,
                  .changed old updated], some .otherError⟩

/-- `OptManager.__getattr__`: an option read returns
`copy.deepcopy(self._opts[attr])`, or raises `AttributeError` for an
undeclared name.  On the pure values `V` a deep copy is the value itself;
the aliasing content of `copy.deepcopy` is modelled separately on the
heap model below. -/
def getattr (o : OptManager) (attr : String) : Option V :=
  alFind o.opts attr

/-- `OptManager.keys()`: the set of declared option names
(`set(self._opts.keys())`), as the ordered list of keys. -/
def keys (o : OptManager) : List String :=
  o.opts.map Prod.fst

/-- `OptManager.reset()`: `self.update(**self._defaults)`. -/
def reset (o : OptManager) (beh : Behavior) : UpdResult :=
  update o beh o.defaults

/-- `OptManager.has_changed(option)`: `if getattr(self, option) !=
self._defaults[option]: return True` — and otherwise falls off the end of
the function, returning Python `None`.  The result is `none` when the
lookup itself raises (undeclared name). -/
def has_changed (o : OptManager) (option : String) : Option V :=
  match getattr o option, alFind o.defaults option with
  | some v, some d => if v ≠ d then some (V.vbool true) else some V.vnone
  | _, _ => none

/-- `OptManager.toggler(attr)`, creation step: `if attr not in self._opts:
raise KeyError(...)`; on success the returned callable is modelled by
`toggle` below. -/
def toggler (o : OptManager) (attr : String) : Option PyErr :=
  if (alFind o.opts attr).isNone then some (.unknownOption attr) else none

/-- One invocation of the callable returned by `toggler(attr)`:
`setattr(self, attr, not getattr(self, attr))`, which on an initialized
instance is `self.update(**{attr: not getattr(self, attr)})`; Python
`not` yields the negated truthiness as a `bool`. -/
def toggle (o : OptManager) (beh : Behavior) (attr : String) : UpdResult :=
  match getattr o attr with
  | some v => update o beh [(attr, V.vbool (! truthy v))]
  | none => ⟨o, [], some (.attributeError attr)⟩

/-- A public write operation on the store, for stating frame properties
over arbitrary operation sequences. -/
inductive Op where
  | updateOp : List (String × V) → Op
  | resetOp : Op
  | toggleOp : String → Op
deriving Repr

/-- Run one write operation, keeping the resulting state. -/
def runOp (o : OptManager) (beh : Behavior) : Op → OptManager
  | .updateOp kw => (update o beh kw).state
  | .resetOp => (reset o beh).state
  | .toggleOp a => (toggle o beh a).state

/-- Run a sequence of write operations left to right. -/
def runOps (o : OptManager) (beh : Behavior) : List Op → OptManager
  | [] => o
  | op :: rest => runOps (runOp o beh op) beh rest

/-! ### Example store and subscriber behaviors (used as concrete inputs) -/

/-- The spec's end-to-end example store: `verbose : bool = False`,
`retries : int = 3`, fresh from construction. -/
def exO : OptManager :=
  { opts := [("verbose", V.vbool false), ("retries", V.vint 3)],
    defaults := [("verbose", V.vbool false), ("retries", V.vint 3)],
    types := [("verbose", TypeD.tbool), ("retries", TypeD.tint)] }

/-- Subscriber chains that never raise. -/
def behOk : Behavior := ⟨fun _ _ => .ok, fun _ _ => .ok⟩

/-- A `changed` subscriber chain that raises `OptionsError("bad")` exactly
when it observes `verbose == True`; `errored` subscribers never raise. -/
def behRaise : Behavior :=
  ⟨fun opts _ =>
      if alFind opts "verbose" = some (V.vbool true) then .optionsError "bad"
      else .ok,
   fun _ _ => .ok⟩

/-- A `changed` subscriber chain that always raises `OptionsError`:
`"first"` when it observes `verbose == True` (the mutated state), and
`"second"` otherwise (the restored state); `errored` subscribers never
raise. -/
def behRaise2 : Behavior :=
  ⟨fun opts _ =>
      if alFind opts "verbose" = some (V.vbool true) then .optionsError "first"
      else .optionsError "second",
   fun _ _ => .ok⟩

/-! ### Association-list and validation lemmas -/

theorem alFind_alSet_self {α : Type} (d : List (String × α)) (k : String)
    (v : α) : alFind (alSet d k v) k = some v := by
  induction d with
  | nil => simp [alSet, alFind]
  | cons p rest ih =>
      obtain ⟨a, b⟩ := p
      by_cases hak : a = k
      · simp [alSet, hak, alFind]
      · simp [alSet, hak, alFind, ih]

theorem alFind_alSet_ne {α : Type} (d : List (String × α)) (k k2 : String)
    (v : α) (h : k ≠ k2) : alFind (alSet d k v) k2 = alFind d k2 := by
  induction d with
  | nil => simp [alSet, alFind, h]
  | cons p rest ih =>
      obtain ⟨a, b⟩ := p
      by_cases hak : a = k
      · subst hak
        simp [alSet, alFind, h]
      · simp [alSet, hak, alFind, ih]

theorem alFind_isSome_iff {α : Type} (d : List (String × α)) (k : String) :
    (alFind d k).isSome = true ↔ k ∈ d.map Prod.fst := by
  induction d with
  | nil => simp [alFind]
  | cons p rest ih =>
      obtain ⟨a, b⟩ := p
      by_cases hak : a = k
      · simp [alFind, hak]
      · simp [alFind, hak, ih, Ne.symm hak]

theorem alFind_eq_none_iff {α : Type} (d : List (String × α)) (k : String) :
    alFind d k = none ↔ k ∉ d.map Prod.fst := by
  rw [← alFind_isSome_iff]
  cases alFind d k <;> simp

theorem dictUpdate_nil {α : Type} (d : List (String × α)) :
    dictUpdate d [] = d := rfl

theorem dictUpdate_cons {α : Type} (d : List (String × α)) (a : String)
    (b : α) (kw : List (String × α)) :
    dictUpdate d ((a, b) :: kw) = dictUpdate (alSet d a b) kw := rfl

theorem dictUpdate_single {α : Type} (d : List (String × α)) (k : String)
    (v : α) : dictUpdate d [(k, v)] = alSet d k v := rfl

theorem alFind_dictUpdate_not_mem {α : Type} (kw d : List (String × α))
    (k : String) (h : k ∉ kw.map Prod.fst) :
    alFind (dictUpdate d kw) k = alFind d k := by
  induction kw generalizing d with
  | nil => rfl
  | cons p rest ih =>
      obtain ⟨a, b⟩ := p
      simp only [List.map_cons, List.mem_cons, not_or] at h
      rw [dictUpdate_cons, ih _ h.2, alFind_alSet_ne _ _ _ _ (Ne.symm h.1)]

theorem alFind_dictUpdate_mem {α : Type} (kw d : List (String × α))
    (k : String) (v : α) (hnd : (kw.map Prod.fst).Nodup)
    (h : alFind kw k = some v) :
    alFind (dictUpdate d kw) k = some v := by
  induction kw generalizing d with
  | nil => simp [alFind] at h
  | cons p rest ih =>
      obtain ⟨a, b⟩ := p
      simp only [List.map_cons, List.nodup_cons] at hnd
      by_cases hak : a = k
      · subst hak
        have hbv : b = v := by simpa [alFind] using h
        subst hbv
        rw [dictUpdate_cons, alFind_dictUpdate_not_mem _ _ _ hnd.1,
          alFind_alSet_self]
      · simp only [alFind, if_neg hak] at h
        rw [dictUpdate_cons]
        exact ih _ hnd.2 h

theorem validate_none_of (o : OptManager) (kwargs : List (String × V))
    (h : ∀ p ∈ kwargs, (alFind o.opts p.1).isSome = true ∧
      typecheck_attr o.types p.1 p.2 = true) :
    validate o kwargs = none := by
  induction kwargs with
  | nil => rfl
  | cons p rest ih =>
      obtain ⟨k, v⟩ := p
      obtain ⟨h1, h2⟩ := h (k, v) (List.mem_cons_self _ _)
      have hrest := ih fun q hq => h q (List.mem_cons_of_mem _ hq)
      simp [validate, Option.isNone_iff_eq_none, h2, hrest,
        Option.isSome_iff_exists.mp h1]
      intro hnone
      rw [hnone] at h1
      simp at h1

theorem validate_eq_some_shape (o : OptManager) (kwargs : List (String × V))
    (e : PyErr) (h : validate o kwargs = some e) :
    (∃ k, e = PyErr.unknownOption k ∧ alFind o.opts k = none ∧
      k ∈ kwargs.map Prod.fst) ∨
    (∃ k v, e = PyErr.incompatibleType k ∧ (k, v) ∈ kwargs ∧
      typecheck_attr o.types k v = false ∧ (alFind o.opts k).isSome = true) := by
  induction kwargs with
  | nil => simp [validate] at h
  | cons p rest ih =>
      obtain ⟨k, v⟩ := p
      by_cases h1 : (alFind o.opts k).isNone
      · left
        simp only [validate, if_pos h1, Option.some.injEq] at h
        exact ⟨k, h.symm, Option.isNone_iff_eq_none.mp h1, by simp⟩
      · by_cases h2 : typecheck_attr o.types k v
        · simp only [validate, if_neg h1, h2, not_true, if_neg] at h
          rcases ih h with ⟨k2, he, hn, hm⟩ | ⟨k2, v2, he, hm, ht, hs⟩
          · exact Or.inl ⟨k2, he, hn, by simp [hm]⟩
          · exact Or.inr ⟨k2, v2, he, List.mem_cons_of_mem _ hm, ht, hs⟩
        · right
          have he : e = PyErr.incompatibleType k := by
            simp [validate, h1, h2] at h
            exact h.symm
          refine ⟨k, v, he, List.mem_cons_self _ _, by simpa using h2, ?_⟩
          simpa [Option.isSome_iff_ne_none, Option.isNone_iff_eq_none] using h1

theorem validate_ne_none (o : OptManager) (kwargs : List (String × V))
    (h : ∃ p ∈ kwargs, alFind o.opts p.1 = none ∨
      typecheck_attr o.types p.1 p.2 = false) :
    validate o kwargs ≠ none := by
  induction kwargs with
  | nil => simp at h
  | cons p rest ih =>
      obtain ⟨k, v⟩ := p
      rcases h with ⟨q, hq, hbad⟩
      rcases List.mem_cons.mp hq with rfl | hmem
      · rcases hbad with hn | ht
        · simp [validate, Option.isNone_iff_eq_none, hn]
        · by_cases h1 : (alFind o.opts k).isNone
          · simp [validate, h1]
          · simp [validate, h1, ht]
      · by_cases h1 : (alFind o.opts (k, v).1).isNone
        · simp [validate, h1]
        · by_cases h2 : typecheck_attr o.types (k, v).1 (k, v).2
          · simpa [validate, h1, h2] using ih ⟨q, hmem, hbad⟩
          · simp [validate, h1, h2]

/-! ### Unfolding lemmas for `update` -/

theorem update_of_validate_some (o : OptManager) (beh : Behavior)
    (kwargs : List (String × V)) (e : PyErr)
    (h : validate o kwargs = some e) :
    update o beh kwargs = ⟨o, [], some e⟩ := by
  simp [update, h]

theorem update_of_changed_ok (o : OptManager) (beh : Behavior)
    (kwargs : List (String × V)) (hv : validate o kwargs = none)
    (hc : beh.onChanged (dictUpdate o.opts kwargs) (kwargs.map Prod.fst) =
      SubRes.ok) :
    update o beh kwargs =
      ⟨{ o with opts := dictUpdate o.opts kwargs },
       [Event.changed (dictUpdate o.opts kwargs) (kwargs.map Prod.fst)],
       none⟩ := by
  simp [update, hv, hc]

theorem update_of_changed_other (o : OptManager) (beh : Behavior)
    (kwargs : List (String × V)) (hv : validate o kwargs = none)
    (hc : beh.onChanged (dictUpdate o.opts kwargs) (kwargs.map Prod.fst) =
      SubRes.otherError) :
    update o beh kwargs =
      ⟨{ o with opts := dictUpdate o.opts kwargs },
       [Event.changed (dictUpdate o.opts kwargs) (kwargs.map Prod.fst)],
       some PyErr.otherError⟩ := by
  simp [update, hv, hc]

theorem update_of_rollback_ok (o : OptManager) (beh : Behavior)
    (kwargs : List (String × V)) (msg : String)
    (hv : validate o kwargs = none)
    (hc : beh.onChanged (dictUpdate o.opts kwargs) (kwargs.map Prod.fst) =
      SubRes.optionsError msg)
    (he : beh.onErrored (dictUpdate o.opts kwargs) msg = SubRes.ok)
    (hc2 : beh.onChanged o.opts (kwargs.map Prod.fst) = SubRes.ok) :
    update o beh kwargs =
      ⟨o,
       [Event.changed (dictUpdate o.opts kwargs) (kwargs.map Prod.fst),
        Event.errored (dictUpdate o.opts kwargs) msg,
        Event.changed o.opts (kwargs.map Prod.fst)],
       none⟩ := by
  simp [update, hv, hc, he, hc2]

theorem update_of_rollback_second_raises (o : OptManager) (beh : Behavior)
    (kwargs : List (String × V)) (m1 m2 : String)
    (hv : validate o kwargs = none)
    (hc : beh.onChanged (dictUpdate o.opts kwargs) (kwargs.map Prod.fst) =
      SubRes.optionsError m1)
    (he : beh.onErrored (dictUpdate o.opts kwargs) m1 = SubRes.ok)
    (hc2 : beh.onChanged o.opts (kwargs.map Prod.fst) =
      SubRes.optionsError m2) :
    update o beh kwargs =
      ⟨o,
       [Event.changed (dictUpdate o.opts kwargs) (kwargs.map Prod.fst),
        Event.errored (dictUpdate o.opts kwargs) m1,
        Event.changed o.opts (kwargs.map Prod.fst)],
       some (PyErr.optionsError m2)⟩ := by
  simp [update, hv, hc, he, hc2]

/-! ### Claim theorems -/

/-- Claim C2: a call `update(proposedValues)` in which some key is
undeclared or some proposed value fails the type check raises
(`UnknownOptionError`, i.e. the source's `KeyError`, for an undeclared
name; `IncompatibleTypeError` for a type mismatch), leaves every option's
current value unchanged — the whole state is untouched — and performs no
mutation and no notification before validation completes: the store is
returned as it was and the event trace is empty. -/
theorem update_validation_failure_all_or_nothing (o : OptManager)
    (beh : Behavior) (kwargs : List (String × V))
    (h : ∃ p ∈ kwargs, alFind o.opts p.1 = none ∨
      typecheck_attr o.types p.1 p.2 = false) :
    (update o beh kwargs).state = o ∧ (update o beh kwargs).trace = [] ∧
    ∃ e, (update o beh kwargs).err = some e ∧
      ((∃ k, e = PyErr.unknownOption k ∧ alFind o.opts k = none) ∨
       (∃ k v, e = PyErr.incompatibleType k ∧ (k, v) ∈ kwargs ∧
         typecheck_attr o.types k v = false)) := by
  obtain ⟨e, he⟩ := Option.ne_none_iff_exists'.mp (validate_ne_none o kwargs h)
  rw [update_of_validate_some o beh kwargs e he]
  refine ⟨rfl, rfl, e, rfl, ?_⟩
  rcases validate_eq_some_shape o kwargs e he with
    ⟨k, hk, hn, _⟩ | ⟨k, v, hk, hm, ht, _⟩
  · exact Or.inl ⟨k, hk, hn⟩
  · exact Or.inr ⟨k, v, hk, hm, ht⟩

/-- Claim C2, witness: `update({"nokey": True})` on the example store. -/
theorem update_validation_failure_all_or_nothing_witness :
    (update exO behOk [("nokey", V.vbool true)]).state = exO ∧
    (update exO behOk [("nokey", V.vbool true)]).trace = [] ∧
    ∃ e, (update exO behOk [("nokey", V.vbool true)]).err = some e ∧
      ((∃ k, e = PyErr.unknownOption k ∧ alFind exO.opts k = none) ∨
       (∃ k v, e = PyErr.incompatibleType k ∧
         (k, v) ∈ [("nokey", V.vbool true)] ∧
         typecheck_attr exO.types k v = false)) :=
  update_validation_failure_all_or_nothing exO behOk [("nokey", V.vbool true)]
    ⟨("nokey", V.vbool true), by decide, by decide⟩

/-- Claim C4: for a declared option `k` and a type-valid value `v`, a
successful `update({k: v})` (no subscriber raises) yields `get(k) == v`,
fires exactly one `changed` event whose updated set is `{k}`, fires no
`errored` event, and returns without error. -/
theorem update_success_single (o : OptManager) (beh : Behavior) (k : String)
    (v w : V) (hk : alFind o.opts k = some w)
    (ht : typecheck_attr o.types k v = true)
    (hs : beh.onChanged (alSet o.opts k v) [k] = SubRes.ok) :
    getattr (update o beh [(k, v)]).state k = some v ∧
    (update o beh [(k, v)]).trace = [Event.changed (alSet o.opts k v) [k]] ∧
    (update o beh [(k, v)]).err = none := by
  have hv : validate o [(k, v)] = none := by
    simp [validate, hk, ht]
  have hd : dictUpdate o.opts [(k, v)] = alSet o.opts k v := rfl
  have hu := update_of_changed_ok o beh [(k, v)] hv (by simpa [hd] using hs)
  rw [hu]
  exact ⟨by simpa [getattr, hd] using alFind_alSet_self o.opts k v,
    by simp [hd], rfl⟩

/-- Claim C4, witness: `update({"verbose": True})` on the example store. -/
theorem update_success_single_witness :
    getattr (update exO behOk [("verbose", V.vbool true)]).state "verbose" =
      some (V.vbool true) ∧
    (update exO behOk [("verbose", V.vbool true)]).trace =
      [Event.changed (alSet exO.opts "verbose" (V.vbool true)) ["verbose"]] ∧
    (update exO behOk [("verbose", V.vbool true)]).err = none :=
  update_success_single exO behOk "verbose" (V.vbool true) (V.vbool false)
    (by decide) (by decide) (by decide)

/-- Claim C3: a non-`OptionsError` exception raised by a `changed`
subscriber propagates uncaught to the caller of `update()`; no rollback is
performed and no `errored` event fires — the trace is the single `changed`
send — and the store keeps its mutated post-apply state, every proposed
value still applied. -/
theorem update_other_exception_no_rollback (o : OptManager) (beh : Behavior)
    (kwargs : List (String × V)) (hv : validate o kwargs = none)
    (hc : beh.onChanged (dictUpdate o.opts kwargs) (kwargs.map Prod.fst) =
      SubRes.otherError)
    (hnd : (kwargs.map Prod.fst).Nodup) :
    (update o beh kwargs).state =
      { o with opts := dictUpdate o.opts kwargs } ∧
    (update o beh kwargs).trace =
      [Event.changed (dictUpdate o.opts kwargs) (kwargs.map Prod.fst)] ∧
    (update o beh kwargs).err = some PyErr.otherError ∧
    ∀ k v, alFind kwargs k = some v →
      getattr (update o beh kwargs).state k = some v := by
  have hu := update_of_changed_other o beh kwargs hv hc
  rw [hu]
  refine ⟨rfl, rfl, rfl, fun k v hkv => ?_⟩
  simpa [getattr] using alFind_dictUpdate_mem kwargs o.opts k v hnd hkv

/-- Claim C3, witness: a subscriber chain raising a non-`OptionsError`
exception on the example store. -/
theorem update_other_exception_no_rollback_witness :
    (update exO ⟨fun _ _ => SubRes.otherError, fun _ _ => SubRes.ok⟩
        [("verbose", V.vbool true)]).state =
      { exO with opts := dictUpdate exO.opts [("verbose", V.vbool true)] } ∧
    (update exO ⟨fun _ _ => SubRes.otherError, fun _ _ => SubRes.ok⟩
        [("verbose", V.vbool true)]).trace =
      [Event.changed (dictUpdate exO.opts [("verbose", V.vbool true)])
        ["verbose"]] ∧
    (update exO ⟨fun _ _ => SubRes.otherError, fun _ _ => SubRes.ok⟩
        [("verbose", V.vbool true)]).err = some PyErr.otherError ∧
    getattr (update exO ⟨fun _ _ => SubRes.otherError, fun _ _ => SubRes.ok⟩
        [("verbose", V.vbool true)]).state "verbose" = some (V.vbool true) := by
  have h := update_other_exception_no_rollback exO
    ⟨fun _ _ => SubRes.otherError, fun _ _ => SubRes.ok⟩
    [("verbose", V.vbool true)] (by decide) (by decide) (by decide)
  exact ⟨h.1, h.2.1, h.2.2.1, h.2.2.2 "verbose" (V.vbool true) (by decide)⟩

/-- Claim C1, counterexample: the claim orders the rollback as "restore
the snapshot, then send `errored`".  On the example store, with a
subscriber raising `OptionsError("bad")` on the first `changed` send, the
`errored` send (trace position 1) delivers while `_opts` still holds the
updated values `verbose = True` — which differ from the pre-transaction
snapshot `exO.opts` — so the store is demonstrably not yet restored when
the `errored` event fires; the source restores only after `errored.send`
returns. -/
theorem rollback_order_counterexample :
    (update exO behRaise [("verbose", V.vbool true)]).trace =
      [Event.changed
        [("verbose", V.vbool true), ("retries", V.vint 3)] ["verbose"],
       Event.errored
        [("verbose", V.vbool true), ("retries", V.vint 3)] "bad",
       Event.changed exO.opts ["verbose"]] ∧
    [("verbose", V.vbool true), ("retries", V.vint 3)] ≠ exO.opts := by
  decide

/-- Claim C1, amended: if the `changed` notification raises an
`OptionsError` during `update()` (and neither the `errored` notification
nor the rollback-announcing `changed` notification raises), then
`update()` sends an `errored` event carrying that error while the store
still holds the updated values, then restores the current-value map to
the pre-transaction snapshot, then sends a second `changed` event with
the same updated-key set, swallows the `OptionsError`, and returns
successfully; afterwards every option's value equals its pre-call
value. -/
theorem update_optionserror_rollback (o : OptManager) (beh : Behavior)
    (kwargs : List (String × V)) (msg : String)
    (hv : validate o kwargs = none)
    (hc : beh.onChanged (dictUpdate o.opts kwargs) (kwargs.map Prod.fst) =
      SubRes.optionsError msg)
    (he : beh.onErrored (dictUpdate o.opts kwargs) msg = SubRes.ok)
    (hc2 : beh.onChanged o.opts (kwargs.map Prod.fst) = SubRes.ok) :
    (update o beh kwargs).state = o ∧
    (update o beh kwargs).trace =
      [Event.changed (dictUpdate o.opts kwargs) (kwargs.map Prod.fst),
       Event.errored (dictUpdate o.opts kwargs) msg,
       Event.changed o.opts (kwargs.map Prod.fst)] ∧
    (update o beh kwargs).err = none ∧
    ∀ k, getattr (update o beh kwargs).state k = getattr o k := by
  have hu := update_of_rollback_ok o beh kwargs msg hv hc he hc2
  rw [hu]
  exact ⟨rfl, rfl, rfl, fun _ => rfl⟩

/-- Claim C1, witness: the rollback scenario on the example store. -/
theorem update_optionserror_rollback_witness :
    (update exO behRaise [("verbose", V.vbool true)]).state = exO ∧
    (update exO behRaise [("verbose", V.vbool true)]).trace =
      [Event.changed (dictUpdate exO.opts [("verbose", V.vbool true)])
        ["verbose"],
       Event.errored (dictUpdate exO.opts [("verbose", V.vbool true)]) "bad",
       Event.changed exO.opts ["verbose"]] ∧
    (update exO behRaise [("verbose", V.vbool true)]).err = none ∧
    getattr (update exO behRaise [("verbose", V.vbool true)]).state
      "verbose" = getattr exO "verbose" := by
  have h := update_optionserror_rollback exO behRaise
    [("verbose", V.vbool true)] "bad" (by decide) (by decide) (by decide)
    (by decide)
  exact ⟨h.1, h.2.1, h.2.2.1, h.2.2.2 "verbose"⟩

/-- Claim C9: if, after an `OptionsError` triggered a rollback, the
second (rollback-announcing) `changed` notification raises an
`OptionsError` again, that second error is not caught: it propagates to
the caller of `update()`; no further rollback is needed or performed (the
state is the already-restored pre-call state) and no second `errored`
event fires — the trace holds exactly one `errored` send. -/
theorem second_changed_optionserror_propagates (o : OptManager)
    (beh : Behavior) (kwargs : List (String × V)) (m1 m2 : String)
    (hv : validate o kwargs = none)
    (hc : beh.onChanged (dictUpdate o.opts kwargs) (kwargs.map Prod.fst) =
      SubRes.optionsError m1)
    (he : beh.onErrored (dictUpdate o.opts kwargs) m1 = SubRes.ok)
    (hc2 : beh.onChanged o.opts (kwargs.map Prod.fst) =
      SubRes.optionsError m2) :
    (update o beh kwargs).err = some (PyErr.optionsError m2) ∧
    (update o beh kwargs).state = o ∧
    (update o beh kwargs).trace =
      [Event.changed (dictUpdate o.opts kwargs) (kwargs.map Prod.fst),
       Event.errored (dictUpdate o.opts kwargs) m1,
       Event.changed o.opts (kwargs.map Prod.fst)] := by
  have hu := update_of_rollback_second_raises o beh kwargs m1 m2 hv hc he hc2
  rw [hu]
  exact ⟨rfl, rfl, rfl⟩

/-- Claim C9, witness: a subscriber chain that raises `OptionsError` on
both `changed` sends, on the example store. -/
theorem second_changed_optionserror_propagates_witness :
    (update exO behRaise2 [("verbose", V.vbool true)]).err =
      some (PyErr.optionsError "second") ∧
    (update exO behRaise2 [("verbose", V.vbool true)]).state = exO ∧
    (update exO behRaise2 [("verbose", V.vbool true)]).trace =
      [Event.changed (dictUpdate exO.opts [("verbose", V.vbool true)])
        ["verbose"],
       Event.errored (dictUpdate exO.opts [("verbose", V.vbool true)])
        "first",
       Event.changed exO.opts ["verbose"]] :=
  second_changed_optionserror_propagates exO behRaise2
    [("verbose", V.vbool true)] "first" "second"
    (by decide) (by decide) (by decide) (by decide)

/-- The example store with `verbose` already switched away from its
default. -/
def exOChanged : OptManager :=
  { opts := [("verbose", V.vbool true), ("retries", V.vint 3)],
    defaults := [("verbose", V.vbool false), ("retries", V.vint 3)],
    types := [("verbose", TypeD.tbool), ("retries", TypeD.tint)] }

/-- Claim C6: assuming the construction invariants (`_defaults` and
`_opts` hold the same keys, without duplicates, and every default
satisfies its own type annotation) and that no subscriber raises,
`reset()` sets every option's current value back to its schema default
and fires exactly one `changed` event whose updated set is the store's
full key set, with no `errored` event and no exception. -/
theorem reset_restores_defaults (o : OptManager) (beh : Behavior)
    (hkeys : o.defaults.map Prod.fst = o.opts.map Prod.fst)
    (hnd : (o.defaults.map Prod.fst).Nodup)
    (htc : ∀ p ∈ o.defaults, typecheck_attr o.types p.1 p.2 = true)
    (hc : beh.onChanged (dictUpdate o.opts o.defaults)
      (o.defaults.map Prod.fst) = SubRes.ok) :
    (∀ k, alFind (reset o beh).state.opts k = alFind o.defaults k) ∧
    (reset o beh).trace =
      [Event.changed (dictUpdate o.opts o.defaults) (keys o)] ∧
    (reset o beh).err = none := by
  have hv : validate o o.defaults = none := by
    apply validate_none_of
    intro p hp
    refine ⟨?_, htc p hp⟩
    rw [alFind_isSome_iff, ← hkeys]
    exact List.mem_map_of_mem Prod.fst hp
  have hu := update_of_changed_ok o beh o.defaults hv hc
  unfold reset
  rw [hu]
  refine ⟨fun k => ?_, by simp [keys, hkeys], rfl⟩
  by_cases hmem : k ∈ o.defaults.map Prod.fst
  · obtain ⟨v, hv2⟩ :=
      Option.isSome_iff_exists.mp ((alFind_isSome_iff _ _).mpr hmem)
    rw [hv2]
    exact alFind_dictUpdate_mem _ _ _ _ hnd hv2
  · have h1 : alFind o.defaults k = none := (alFind_eq_none_iff _ _).mpr hmem
    have h2 : alFind o.opts k = none :=
      (alFind_eq_none_iff _ _).mpr (by rwa [← hkeys])
    rw [alFind_dictUpdate_not_mem _ _ _ hmem, h1, h2]

/-- Claim C6, witness: `reset()` on the example store whose `verbose`
value was switched away from its default. -/
theorem reset_restores_defaults_witness :
    alFind (reset exOChanged behOk).state.opts "verbose" =
      alFind exOChanged.defaults "verbose" ∧
    (reset exOChanged behOk).trace =
      [Event.changed (dictUpdate exOChanged.opts exOChanged.defaults)
        (keys exOChanged)] ∧
    (reset exOChanged behOk).err = none := by
  have h := reset_restores_defaults exOChanged behOk (by decide) (by decide)
    (by decide) (by decide)
  exact ⟨h.1 "verbose", h.2.1, h.2.2⟩

/-- Claim C7, counterexample: `has_changed` does not return a boolean
when the option equals its default.  On the freshly constructed example
store, `has_changed("retries")` returns Python `None` (the function body
is `if ...: return True` and otherwise falls off the end), which is
neither `True` nor `False`. -/
theorem has_changed_not_boolean_counterexample :
    has_changed exO "retries" = some V.vnone ∧
    some V.vnone ≠ some (V.vbool true) ∧
    some V.vnone ≠ some (V.vbool false) := by
  decide

/-- Claim C7, amended: for a declared option, `has_changed(name)` returns
`True` when `get(name)` differs from the option's default value, and
returns `None` — a falsy value that is not the boolean `False` — when
they are equal; as a truth value the result holds exactly when
`get(name) != defaultValue(name)`. -/
theorem has_changed_amended (o : OptManager) (name : String) (v d : V)
    (hv : getattr o name = some v) (hd : alFind o.defaults name = some d) :
    has_changed o name = some (if v = d then V.vnone else V.vbool true) ∧
    (truthy ((has_changed o name).getD V.vnone) = true ↔ v ≠ d) := by
  by_cases hvd : v = d <;>
    simp [has_changed, hv, hd, hvd, truthy]

/-- Claim C7 (amended), witness: `has_changed("verbose")` on the example
store whose `verbose` was switched away from its default. -/
theorem has_changed_amended_witness :
    has_changed exOChanged "verbose" = some (V.vbool true) ∧
    truthy ((has_changed exOChanged "verbose").getD V.vnone) = true := by
  have h := has_changed_amended exOChanged "verbose" (V.vbool true)
    (V.vbool false) (by decide) (by decide)
  refine ⟨by simpa using h.1, h.2.mpr (by decide)⟩

/-- Claim C8: for a boolean-typed option `b` (its annotation is `bool`,
or it carries no type information) currently holding a boolean value,
invoking the callback returned by `toggler(b)` twice in succession, with
no subscriber raising, leaves `b`'s current value equal to its value
before the first invocation. -/
theorem toggler_twice_restores (o : OptManager) (beh : Behavior)
    (b : String) (x : Bool)
    (hv : getattr o b = some (V.vbool x))
    (ht : alFind o.types b = some TypeD.tbool ∨ alFind o.types b = none)
    (hall : ∀ op u, beh.onChanged op u = SubRes.ok) :
    getattr (toggle (toggle o beh b).state beh b).state b =
      some (V.vbool x) := by
  have hfind : alFind o.opts b = some (V.vbool x) := hv
  have htc : ∀ y : Bool, typecheck_attr o.types b (V.vbool y) = true := by
    intro y
    rcases ht with h | h <;> simp [typecheck_attr, h, check_type]
  have hval1 : validate o [(b, V.vbool (!x))] = none := by
    simp [validate, hfind, htc]
  have h1 : toggle o beh b = update o beh [(b, V.vbool (!x))] := by
    simp [toggle, hv, truthy]
  have hu1 := update_of_changed_ok o beh [(b, V.vbool (!x))] hval1 (hall _ _)
  have hs1 : (toggle o beh b).state =
      { o with opts := alSet o.opts b (V.vbool (!x)) } := by
    rw [h1, hu1, dictUpdate_single]
  have hfind1 :
      alFind (alSet o.opts b (V.vbool (!x))) b = some (V.vbool (!x)) :=
    alFind_alSet_self o.opts b (V.vbool (!x))
  have hval2 :
      validate { o with opts := alSet o.opts b (V.vbool (!x)) }
        [(b, V.vbool (!!x))] = none := by
    simp [validate, hfind1, htc]
  have h2 : toggle { o with opts := alSet o.opts b (V.vbool (!x)) } beh b =
      update { o with opts := alSet o.opts b (V.vbool (!x)) } beh
        [(b, V.vbool (!!x))] := by
    simp [toggle, getattr, hfind1, truthy]
  have hu2 := update_of_changed_ok
    { o with opts := alSet o.opts b (V.vbool (!x)) } beh
    [(b, V.vbool (!!x))] hval2 (hall _ _)
  have hs2 : (toggle { o with opts := alSet o.opts b (V.vbool (!x)) }
      beh b).state =
      { o with opts :=
          alSet (alSet o.opts b (V.vbool (!x))) b (V.vbool (!!x)) } := by
    rw [h2, hu2, dictUpdate_single]
  rw [hs1, hs2]
  have h3 : alFind
      (alSet (alSet o.opts b (V.vbool (!x))) b (V.vbool (!!x))) b =
      some (V.vbool (!!x)) :=
    alFind_alSet_self _ b (V.vbool (!!x))
  simpa [getattr, Bool.not_not] using h3

/-- Claim C8, witness: toggling `verbose` twice on the example store. -/
theorem toggler_twice_restores_witness :
    getattr (toggle (toggle exO behOk "verbose").state behOk "verbose").state
      "verbose" = some (V.vbool false) :=
  toggler_twice_restores exO behOk "verbose" false (by decide)
    (Or.inl (by decide)) (fun _ _ => rfl)

/-- `update` never touches `self._defaults`: helper for the frame
claim. -/
theorem update_preserves_defaults (o : OptManager) (beh : Behavior)
    (kwargs : List (String × V)) :
    (update o beh kwargs).state.defaults = o.defaults := by
  cases hv : validate o kwargs with
  | some e => simp [update, hv]
  | none =>
      cases hc : beh.onChanged (dictUpdate o.opts kwargs)
          (kwargs.map Prod.fst) with
      | ok => simp [update, hv, hc]
      | otherError => simp [update, hv, hc]
      | optionsError m =>
          cases he : beh.onErrored (dictUpdate o.opts kwargs) m with
          | ok =>
              cases hc2 : beh.onChanged o.opts (kwargs.map Prod.fst) <;>
                simp [update, hv, hc, he, hc2]
          | optionsError m2 => simp [update, hv, hc, he]
          | otherError => simp [update, hv, hc, he]

/-- `toggle` never touches `self._defaults`: helper for the frame
claim. -/
theorem toggle_preserves_defaults (o : OptManager) (beh : Behavior)
    (a : String) : (toggle o beh a).state.defaults = o.defaults := by
  cases hg : getattr o a with
  | some v => simp [toggle, hg, update_preserves_defaults]
  | none => simp [toggle, hg]

/-- Claim C10: no public write operation mutates the defaults map — after
any sequence of `update`, `reset` and `toggler` invocations (rollback
included, since it lives inside `update`), the `_defaults` mapping, which
`has_changed` reads and `reset` replays, is identical to what
construction produced, key by key. -/
theorem write_ops_preserve_defaults (o : OptManager) (beh : Behavior)
    (ops : List Op) :
    (runOps o beh ops).defaults = o.defaults ∧
    ∀ name, alFind (runOps o beh ops).defaults name =
      alFind o.defaults name := by
  have hmain : ∀ (ops : List Op) (o : OptManager),
      (runOps o beh ops).defaults = o.defaults := by
    intro ops
    induction ops with
    | nil => intro o; rfl
    | cons op rest ih =>
        intro o
        have h1 : (runOp o beh op).defaults = o.defaults := by
          cases op with
          | updateOp kw => exact update_preserves_defaults o beh kw
          | resetOp => exact update_preserves_defaults o beh o.defaults
          | toggleOp a => exact toggle_preserves_defaults o beh a
        rw [runOps, ih, h1]
  exact ⟨hmain ops o, fun name => by rw [hmain ops o]⟩

/-! ### Heap model of `copy.deepcopy`

`__getattr__` returns `copy.deepcopy(self._opts[attr])`.  The pure values
`V` above cannot express in-place mutation, so the aliasing claim is
settled on an explicit heap: every Python object is a node at an address,
mutable containers hold the addresses of their elements, and in-place
mutation is overwriting the node at an address.  -/

/-- A node in the object heap: an immutable scalar, `None`, or a mutable
list holding the addresses of its elements. -/
inductive Node where
  | nbool : Bool → Node
  | nint : Int → Node
  | nstr : String → Node
  | nnone : Node
  | nlist : List Nat → Node
deriving DecidableEq, Repr

/-- The object heap: the node at address `a` is entry `a`; allocation
appends at the end. -/
abbrev Heap := List Node

/-- The addresses a node refers to directly. -/
def Node.children : Node → List Nat
  | .nlist cs => cs
  | _ => []

/-- Executable well-formedness of the heap region below `n`: every node
at an address `j < n` only refers to smaller addresses.  Heaps built by
allocating each object after its parts satisfy this; it rules out cycles
so that value semantics terminates. -/
def wfBelowB (h : Heap) (n : Nat) : Bool :=
  (List.range n).all fun j =>
    match h.get? j with
    | some nd => nd.children.all fun c => decide (c < j)
    | none => true

/-- Propositional form of `wfBelowB`. -/
def WFb (h : Heap) (n : Nat) : Prop :=
  ∀ j nd, j < n → h.get? j = some nd → ∀ c ∈ nd.children, c < j

mutual

/-- The pure value an address denotes: follow the structure, reading the
heap (fuel-bounded; any fuel at least the object's size is enough). -/
def denote : Nat → Heap → Nat → Option V
  | 0, _, _ => none
  | fuel + 1, h, a =>
    match h.get? a with
    | none => none
    | some (.nbool b) => some (V.vbool b)
    | some (.nint n) => some (V.vint n)
    | some (.nstr s) => some (V.vstr s)
    | some .nnone => some V.vnone
    | some (.nlist cs) => Option.map V.vseq (denoteList fuel h cs)

/-- The pure values a list of addresses denotes. -/
def denoteList : Nat → Heap → List Nat → Option (List V)
  | 0, _, _ => none
  | _ + 1, _, [] => some []
  | fuel + 1, h, c :: cs =>
    match denote fuel h c, denoteList fuel h cs with
    | some v, some vs => some (v :: vs)
    | _, _ => none

end

mutual

/-- Modelled from the spec: `copy.deepcopy` (the Python standard library
is not under `src/`) — "a duplicate value with no shared mutable
substructure with its source".  Recursively copies the object at `a`,
allocating every copied node fresh at the end of the heap, and returns
the extended heap with the copy's root address (fuel-bounded). -/
def deepcopy : Nat → Heap → Nat → Option (Heap × Nat)
  | 0, _, _ => none
  | fuel + 1, h, a =>
    match h.get? a with
    | none => none
    | some (.nlist cs) =>
      match deepcopyList fuel h cs with
      | none => none
      | some (h1, cs1) => some (h1 ++ [Node.nlist cs1], h1.length)
    | some nd => some (h ++ [nd], h.length)

/-- Deep-copy each address in order, threading the heap. -/
def deepcopyList : Nat → Heap → List Nat → Option (Heap × List Nat)
  | 0, _, _ => none
  | _ + 1, h, [] => some (h, [])
  | fuel + 1, h, c :: cs =>
    match deepcopy fuel h c with
    | none => none
    | some (hA, c1) =>
      match deepcopyList fuel hA cs with
      | none => none
      | some (h1, cs1) => some (h1, c1 :: cs1)

end

/-- The addresses reachable from `a` — the mutable substructure of the
value rooted at `a` (fuel-bounded). -/
def reach : Nat → Heap → Nat → List Nat
  | 0, _, a => [a]
  | fuel + 1, h, a =>
    a :: (match h.get? a with
          | some nd => (nd.children.map (reach fuel h)).flatten
          | none => [])

/-- An option store over the heap: `roots` maps each option name to the
address of its stored value. -/
structure HeapStore where
  heap : Heap
  roots : List (String × Nat)
deriving DecidableEq, Repr

/-- `__getattr__` on the heap model: `copy.deepcopy(self._opts[attr])` —
look up the option's root address and deep-copy it; the store's own roots
are untouched, the heap gains the copy, and the caller receives the
copy's root address. -/
def getH (s : HeapStore) (name : String) (fuel : Nat) :
    Option (HeapStore × Nat) :=
  match alFind s.roots name with
  | none => none
  | some a =>
    match deepcopy fuel s.heap a with
    | none => none
    | some (h1, a1) => some (⟨h1, s.roots⟩, a1)

/-- In-place mutation of the object at address `b` (for example
`lst.append(...)` or `lst[0] = ...` on a returned list). -/
def writeAt (s : HeapStore) (b : Nat) (nd : Node) : HeapStore :=
  ⟨s.heap.set b nd, s.roots⟩

/-! ### Deep-copy isolation lemmas -/

theorem wfb_of_wfBelowB (h : Heap) (n : Nat) (hb : wfBelowB h n = true) :
    WFb h n := by
  intro j nd hj hget c hc
  have hj2 := (List.all_eq_true.mp hb) j (List.mem_range.mpr hj)
  rw [hget] at hj2
  exact of_decide_eq_true ((List.all_eq_true.mp hj2) c hc)

theorem wfb_of_agree (h h2 : Heap) (n : Nat) (hwf : WFb h n)
    (hag : ∀ i, i < n → h2.get? i = h.get? i) : WFb h2 n := by
  intro j nd hj hget
  exact hwf j nd hj (by rw [← hag j hj]; exact hget)

mutual

theorem denote_agree : ∀ (fuel : Nat) (h g : Heap) (n a : Nat),
    WFb h n → a < n → (∀ i, i < n → h.get? i = g.get? i) →
    denote fuel h a = denote fuel g a
  | 0, _, _, _, _, _, _, _ => rfl
  | fuel + 1, h, g, n, a, hwf, ha, hag => by
      have hga := hag a ha
      unfold denote
      rw [← hga]
      cases hnd : h.get? a with
      | none => rfl
      | some nd =>
          cases nd with
          | nbool b => rfl
          | nint i => rfl
          | nstr s => rfl
          | nnone => rfl
          | nlist cs =>
              have hch := hwf a _ ha hnd
              dsimp only
              rw [denoteList_agree fuel h g n cs hwf
                (fun c hc => lt_trans (hch c hc) ha) hag]

theorem denoteList_agree : ∀ (fuel : Nat) (h g : Heap) (n : Nat)
    (cs : List Nat), WFb h n → (∀ c ∈ cs, c < n) →
    (∀ i, i < n → h.get? i = g.get? i) →
    denoteList fuel h cs = denoteList fuel g cs
  | 0, _, _, _, _, _, _, _ => rfl
  | _ + 1, _, _, _, [], _, _, _ => rfl
  | fuel + 1, h, g, n, c :: cs, hwf, hcs, hag => by
      unfold denoteList
      rw [denote_agree fuel h g n c hwf (hcs c (List.mem_cons_self _ _)) hag,
        denoteList_agree fuel h g n cs hwf
          (fun d hd => hcs d (List.mem_cons_of_mem _ hd)) hag]

end

theorem reach_lower (h1 : Heap) (n : Nat)
    (hseg : ∀ j nd, n ≤ j → h1.get? j = some nd →
      ∀ c ∈ nd.children, n ≤ c) :
    ∀ (fuel a : Nat), n ≤ a → ∀ b ∈ reach fuel h1 a, n ≤ b := by
  intro fuel
  induction fuel with
  | zero =>
      intro a ha b hb
      simp only [reach, List.mem_singleton] at hb
      subst hb
      exact ha
  | succ fuel ih =>
      intro a ha b hb
      simp only [reach, List.mem_cons] at hb
      rcases hb with rfl | hb
      · exact ha
      · cases hnd : h1.get? a with
        | none => rw [hnd] at hb; simp at hb
        | some nd =>
            rw [hnd] at hb
            rw [List.mem_flatten] at hb
            obtain ⟨l, hl, hbl⟩ := hb
            rw [List.mem_map] at hl
            obtain ⟨c, hc, rfl⟩ := hl
            exact ih c (hseg a nd ha hnd c hc) b hbl

mutual

theorem deepcopy_spec : ∀ (fuel : Nat) (h : Heap) (a : Nat) (h1 : Heap)
    (a1 : Nat), deepcopy fuel h a = some (h1, a1) →
    (∀ i, i < h.length → h1.get? i = h.get? i) ∧
    h.length ≤ h1.length ∧ h.length ≤ a1 ∧ a1 < h1.length ∧
    (∀ j nd, h.length ≤ j → h1.get? j = some nd →
      ∀ c ∈ nd.children, h.length ≤ c ∧ c < h1.length)
  | 0, _, _, _, _, heq => by simp [deepcopy] at heq
  | fuel + 1, h, a, h1, a1, heq => by
      cases hnd : h.get? a with
      | none =>
          simp only [deepcopy, hnd] at heq
          exact absurd heq (by simp)
      | some nd =>
        cases nd with
        | nlist cs =>
            cases hdl : deepcopyList fuel h cs with
            | none =>
                simp only [deepcopy, hnd, hdl] at heq
                exact absurd heq (by simp)
            | some p =>
                obtain ⟨hA, cs1⟩ := p
                simp only [deepcopy, hnd, hdl, Option.some.injEq,
                  Prod.mk.injEq] at heq
                obtain ⟨hh1, ha1⟩ := heq
                subst hh1
                subst ha1
                obtain ⟨hag, hlen, hroots, hseg⟩ :=
                  deepcopyList_spec fuel h cs hA cs1 hdl
                refine ⟨?_, le_trans hlen (by simp), hlen, by simp, ?_⟩
                · intro i hi
                  rw [List.get?_append (lt_of_lt_of_le hi hlen), hag i hi]
                · intro j nd2 hj hget d hd
                  rcases Nat.lt_trichotomy j hA.length with hlt | rfl | hgt
                  · rw [List.get?_append hlt] at hget
                    obtain ⟨h1d, h2d⟩ := hseg j nd2 hj hget d hd
                    exact ⟨h1d, by simp; omega⟩
                  · rw [List.get?_concat_length] at hget
                    cases hget
                    obtain ⟨h1d, h2d⟩ := hroots d hd
                    exact ⟨h1d, by simp; omega⟩
                  · have hlen2 : (hA ++ [Node.nlist cs1]).length ≤ j := by
                      simp
                      omega
                    rw [List.get?_len_le hlen2] at hget
                    cases hget
        | nbool b =>
            simp only [deepcopy, hnd, Option.some.injEq, Prod.mk.injEq] at heq
            obtain ⟨hh1, ha1⟩ := heq
            subst hh1
            subst ha1
            refine ⟨fun i hi => List.get?_append hi, by simp, le_refl _,
              by simp, ?_⟩
            intro j nd2 hj hget d hd
            rcases eq_or_lt_of_le hj with rfl | hj2
            · rw [List.get?_concat_length] at hget
              cases hget
              simp [Node.children] at hd
            · have hlen2 : (h ++ [Node.nbool b]).length ≤ j := by
                simp
                omega
              rw [List.get?_len_le hlen2] at hget
              cases hget
        | nint i =>
            simp only [deepcopy, hnd, Option.some.injEq, Prod.mk.injEq] at heq
            obtain ⟨hh1, ha1⟩ := heq
            subst hh1
            subst ha1
            refine ⟨fun i hi => List.get?_append hi, by simp, le_refl _,
              by simp, ?_⟩
            intro j nd2 hj hget d hd
            rcases eq_or_lt_of_le hj with rfl | hj2
            · rw [List.get?_concat_length] at hget
              cases hget
              simp [Node.children] at hd
            · have hlen2 : (h ++ [Node.nint i]).length ≤ j := by
                simp
                omega
              rw [List.get?_len_le hlen2] at hget
              cases hget
        | nstr s =>
            simp only [deepcopy, hnd, Option.some.injEq, Prod.mk.injEq] at heq
            obtain ⟨hh1, ha1⟩ := heq
            subst hh1
            subst ha1
            refine ⟨fun i hi => List.get?_append hi, by simp, le_refl _,
              by simp, ?_⟩
            intro j nd2 hj hget d hd
            rcases eq_or_lt_of_le hj with rfl | hj2
            · rw [List.get?_concat_length] at hget
              cases hget
              simp [Node.children] at hd
            · have hlen2 : (h ++ [Node.nstr s]).length ≤ j := by
                simp
                omega
              rw [List.get?_len_le hlen2] at hget
              cases hget
        | nnone =>
            simp only [deepcopy, hnd, Option.some.injEq, Prod.mk.injEq] at heq
            obtain ⟨hh1, ha1⟩ := heq
            subst hh1
            subst ha1
            refine ⟨fun i hi => List.get?_append hi, by simp, le_refl _,
              by simp, ?_⟩
            intro j nd2 hj hget d hd
            rcases eq_or_lt_of_le hj with rfl | hj2
            · rw [List.get?_concat_length] at hget
              cases hget
              simp [Node.children] at hd
            · have hlen2 : (h ++ [Node.nnone]).length ≤ j := by
                simp
                omega
              rw [List.get?_len_le hlen2] at hget
              cases hget

theorem deepcopyList_spec : ∀ (fuel : Nat) (h : Heap) (cs : List Nat)
    (h1 : Heap) (cs1 : List Nat), deepcopyList fuel h cs = some (h1, cs1) →
    (∀ i, i < h.length → h1.get? i = h.get? i) ∧
    h.length ≤ h1.length ∧
    (∀ c ∈ cs1, h.length ≤ c ∧ c < h1.length) ∧
    (∀ j nd, h.length ≤ j → h1.get? j = some nd →
      ∀ c ∈ nd.children, h.length ≤ c ∧ c < h1.length)
  | 0, _, _, _, _, heq => by simp [deepcopyList] at heq
  | fuel + 1, h, [], h1, cs1, heq => by
      simp only [deepcopyList, Option.some.injEq, Prod.mk.injEq] at heq
      obtain ⟨hh1, hcs1⟩ := heq
      subst hh1
      subst hcs1
      refine ⟨fun i _ => rfl, le_refl _, by simp, ?_⟩
      intro j nd hj hget
      rw [List.get?_len_le hj] at hget
      cases hget
  | fuel + 1, h, c :: cs, h1, cs1, heq => by
      cases hdc : deepcopy fuel h c with
      | none => simp [deepcopyList, hdc] at heq
      | some p =>
        obtain ⟨hA, c1⟩ := p
        cases hdl : deepcopyList fuel hA cs with
        | none => simp [deepcopyList, hdc, hdl] at heq
        | some q =>
          obtain ⟨hB, cs2⟩ := q
          simp only [deepcopyList, hdc, hdl, Option.some.injEq,
            Prod.mk.injEq] at heq
          obtain ⟨hh1, hcs1⟩ := heq
          subst hh1
          subst hcs1
          obtain ⟨hag1, hlen1, hrl1, hru1, hseg1⟩ :=
            deepcopy_spec fuel h c hA c1 hdc
          obtain ⟨hag2, hlen2, hroots2, hseg2⟩ :=
            deepcopyList_spec fuel hA cs hB cs2 hdl
          refine ⟨?_, le_trans hlen1 hlen2, ?_, ?_⟩
          · intro i hi
            rw [hag2 i (lt_of_lt_of_le hi hlen1), hag1 i hi]
          · intro d hd
            rcases List.mem_cons.mp hd with rfl | hd2
            · exact ⟨hrl1, lt_of_lt_of_le hru1 hlen2⟩
            · obtain ⟨h1d, h2d⟩ := hroots2 d hd2
              exact ⟨le_trans hlen1 h1d, h2d⟩
          · intro j nd hj hget d hd
            rcases Nat.lt_or_ge j hA.length with hlt | hge
            · have hgA : hA.get? j = some nd := by
                rw [← hag2 j hlt]
                exact hget
              obtain ⟨h1d, h2d⟩ := hseg1 j nd hj hgA d hd
              exact ⟨h1d, lt_of_lt_of_le h2d hlen2⟩
            · obtain ⟨h1d, h2d⟩ := hseg2 j nd hge hget d hd
              exact ⟨le_trans hlen1 h1d, h2d⟩

end

mutual

theorem deepcopy_denote : ∀ (fuel : Nat) (h : Heap) (n a : Nat) (h1 : Heap)
    (a1 : Nat), WFb h n → a < n → n ≤ h.length →
    deepcopy fuel h a = some (h1, a1) →
    ∀ g : Heap, (∀ i, i < h1.length → g.get? i = h1.get? i) →
    ∀ F, denote F g a1 = denote F h a
  | 0, _, _, _, _, _, _, _, _, heq => by simp [deepcopy] at heq
  | fuel + 1, h, n, a, h1, a1, hwf, ha, hn, heq => by
      cases hnd : h.get? a with
      | none =>
          simp only [deepcopy, hnd] at heq
          exact absurd heq (by simp)
      | some nd =>
        cases nd with
        | nlist cs =>
            cases hdl : deepcopyList fuel h cs with
            | none =>
                simp only [deepcopy, hnd, hdl] at heq
                exact absurd heq (by simp)
            | some p =>
                obtain ⟨hA, cs1⟩ := p
                simp only [deepcopy, hnd, hdl, Option.some.injEq,
                  Prod.mk.injEq] at heq
                obtain ⟨hh1, ha1⟩ := heq
                subst hh1
                subst ha1
                intro g hag F
                obtain ⟨hagA, hlenA, _, _⟩ :=
                  deepcopyList_spec fuel h cs hA cs1 hdl
                cases F with
                | zero => rfl
                | succ F =>
                    have hga1 : g.get? hA.length = some (Node.nlist cs1) := by
                      rw [hag hA.length (by simp), List.get?_concat_length]
                    have hch : ∀ c ∈ cs, c < n :=
                      fun c hc => lt_trans (hwf a _ ha hnd c hc) ha
                    have hlist := deepcopyList_denote fuel h n cs hA cs1 hwf
                      hch hn hdl g
                      (fun i hi => by
                        rw [hag i (by simp; omega), List.get?_append hi]) F
                    unfold denote
                    rw [hga1, hnd]
                    dsimp only
                    rw [hlist]
        | nbool b =>
            simp only [deepcopy, hnd, Option.some.injEq, Prod.mk.injEq] at heq
            obtain ⟨hh1, ha1⟩ := heq
            subst hh1
            subst ha1
            intro g hag F
            cases F with
            | zero => rfl
            | succ F =>
                have hga1 : g.get? h.length = some (Node.nbool b) := by
                  rw [hag h.length (by simp), List.get?_concat_length]
                unfold denote
                rw [hga1, hnd]
        | nint i =>
            simp only [deepcopy, hnd, Option.some.injEq, Prod.mk.injEq] at heq
            obtain ⟨hh1, ha1⟩ := heq
            subst hh1
            subst ha1
            intro g hag F
            cases F with
            | zero => rfl
            | succ F =>
                have hga1 : g.get? h.length = some (Node.nint i) := by
                  rw [hag h.length (by simp), List.get?_concat_length]
                unfold denote
                rw [hga1, hnd]
        | nstr str =>
            simp only [deepcopy, hnd, Option.some.injEq, Prod.mk.injEq] at heq
            obtain ⟨hh1, ha1⟩ := heq
            subst hh1
            subst ha1
            intro g hag F
            cases F with
            | zero => rfl
            | succ F =>
                have hga1 : g.get? h.length = some (Node.nstr str) := by
                  rw [hag h.length (by simp), List.get?_concat_length]
                unfold denote
                rw [hga1, hnd]
        | nnone =>
            simp only [deepcopy, hnd, Option.some.injEq, Prod.mk.injEq] at heq
            obtain ⟨hh1, ha1⟩ := heq
            subst hh1
            subst ha1
            intro g hag F
            cases F with
            | zero => rfl
            | succ F =>
                have hga1 : g.get? h.length = some Node.nnone := by
                  rw [hag h.length (by simp), List.get?_concat_length]
                unfold denote
                rw [hga1, hnd]

theorem deepcopyList_denote : ∀ (fuel : Nat) (h : Heap) (n : Nat)
    (cs : List Nat) (h1 : Heap) (cs1 : List Nat),
    WFb h n → (∀ c ∈ cs, c < n) → n ≤ h.length →
    deepcopyList fuel h cs = some (h1, cs1) →
    ∀ g : Heap, (∀ i, i < h1.length → g.get? i = h1.get? i) →
    ∀ F, denoteList F g cs1 = denoteList F h cs
  | 0, _, _, _, _, _, _, _, _, heq => by simp [deepcopyList] at heq
  | _ + 1, h, n, [], h1, cs1, _, _, _, heq => by
      simp only [deepcopyList, Option.some.injEq, Prod.mk.injEq] at heq
      obtain ⟨hh1, hcs1⟩ := heq
      subst hh1
      subst hcs1
      intro g hag F
      cases F with
      | zero => rfl
      | succ F => rfl
  | fuel + 1, h, n, c :: cs, h1, cs1, hwf, hcs, hn, heq => by
      cases hdc : deepcopy fuel h c with
      | none => simp [deepcopyList, hdc] at heq
      | some p =>
        obtain ⟨hA, c1⟩ := p
        cases hdl : deepcopyList fuel hA cs with
        | none => simp [deepcopyList, hdc, hdl] at heq
        | some q =>
          obtain ⟨hB, cs2⟩ := q
          simp only [deepcopyList, hdc, hdl, Option.some.injEq,
            Prod.mk.injEq] at heq
          obtain ⟨hh1, hcs1⟩ := heq
          subst hh1
          subst hcs1
          intro g hag F
          obtain ⟨hag1, hlen1, _, _, _⟩ := deepcopy_spec fuel h c hA c1 hdc
          obtain ⟨hag2, hlen2, _, _⟩ := deepcopyList_spec fuel hA cs hB cs2 hdl
          have hwfA : WFb hA n := wfb_of_agree h hA n hwf
            (fun i hi => hag1 i (lt_of_lt_of_le hi hn))
          have hd1 := deepcopy_denote fuel h n c hA c1 hwf
            (hcs c (List.mem_cons_self _ _)) hn hdc g
            (fun i hi => by rw [hag i (lt_of_lt_of_le hi hlen2), hag2 i hi])
          have hd2 := deepcopyList_denote fuel hA n cs hB cs2 hwfA
            (fun d hd => hcs d (List.mem_cons_of_mem _ hd))
            (le_trans hn hlen1) hdl g hag
          have hAh : ∀ F2, denoteList F2 hA cs = denoteList F2 h cs :=
            fun F2 => denoteList_agree F2 hA h n cs hwfA
              (fun d hd => hcs d (List.mem_cons_of_mem _ hd))
              (fun i hi => hag1 i (lt_of_lt_of_le hi hn))
          cases F with
          | zero => rfl
          | succ F =>
              unfold denoteList
              rw [hd1 F, hd2 F, hAh F]

end

/-- Claim C5: for a declared option, `get(name)` returns a deep copy
sharing no mutable substructure with the stored value: mutating in place
any object `b` reachable from the value one `get(name)` returned
(`writeAt` arbitrary contents at `b`) never changes the result of a later
`get(name)` on the same store — the later call's value equals the first
call's pre-mutation value.  The heap is well formed (each object refers
only to previously allocated ones) and `a` is the option's stored root
address. -/
theorem get_deepcopy_isolation (s : HeapStore) (name : String) (a : Nat)
    (F0 F1 F2 F : Nat) (s1 : HeapStore) (a1 : Nat) (b : Nat) (nd : Node)
    (s3 : HeapStore) (a2 : Nat)
    (hwf : wfBelowB s.heap s.heap.length = true)
    (hroot : alFind s.roots name = some a) (ha : a < s.heap.length)
    (hg1 : getH s name F0 = some (s1, a1))
    (hb : b ∈ reach F1 s1.heap a1)
    (hg2 : getH (writeAt s1 b nd) name F2 = some (s3, a2)) :
    denote F s3.heap a2 = denote F s1.heap a1 := by
  have hwfp : WFb s.heap s.heap.length := wfb_of_wfBelowB _ _ hwf
  cases hdc1 : deepcopy F0 s.heap a with
  | none =>
      simp only [getH, hroot, hdc1] at hg1
      exact absurd hg1 (by simp)
  | some p =>
      obtain ⟨h1, a1x⟩ := p
      simp only [getH, hroot, hdc1, Option.some.injEq, Prod.mk.injEq] at hg1
      obtain ⟨hs1, ha1⟩ := hg1
      subst hs1
      subst ha1
      obtain ⟨hag1, hlen1, hrl1, hru1, hseg1⟩ :=
        deepcopy_spec F0 s.heap a h1 a1x hdc1
      have hbn : s.heap.length ≤ b :=
        reach_lower h1 s.heap.length
          (fun j nd2 hj hget c hc => (hseg1 j nd2 hj hget c hc).1)
          F1 a1x hrl1 b hb
      have hagm : ∀ i, i < s.heap.length →
          (h1.set b nd).get? i = s.heap.get? i := by
        intro i hi
        rw [List.get?_set_ne nd h1 (by omega), hag1 i hi]
      have hwfm : WFb (h1.set b nd) s.heap.length :=
        wfb_of_agree s.heap _ _ hwfp hagm
      cases hdc2 : deepcopy F2 (h1.set b nd) a with
      | none =>
          simp only [getH, writeAt, hroot, hdc2] at hg2
          exact absurd hg2 (by simp)
      | some q =>
          obtain ⟨h3, a2x⟩ := q
          simp only [getH, writeAt, hroot, hdc2, Option.some.injEq,
            Prod.mk.injEq] at hg2
          obtain ⟨hs3, ha2⟩ := hg2
          subst hs3
          subst ha2
          have hd2 := deepcopy_denote F2 (h1.set b nd) s.heap.length a h3 a2x
            hwfm ha (by simpa using hlen1) hdc2 h3 (fun i _ => rfl) F
          have hdm : denote F (h1.set b nd) a = denote F s.heap a :=
            denote_agree F (h1.set b nd) s.heap s.heap.length a hwfm ha hagm
          have hd1 := deepcopy_denote F0 s.heap s.heap.length a h1 a1x hwfp
            ha le_rfl hdc1 h1 (fun i _ => rfl) F
          rw [hd2, hdm, hd1]

/-- The heap of the example: the integers `1` and `2` at addresses `0`
and `1`, and a two-element list object `[1, 2]` at address `2`. -/
def exHeap : Heap := [Node.nint 1, Node.nint 2, Node.nlist [0, 1]]

/-- The example heap store: one option `hosts` whose stored value is the
list at address `2`. -/
def exHS : HeapStore := ⟨exHeap, [("hosts", 2)]⟩

/-- The store after `get("hosts")`: the copy `[1, 2]` occupies the fresh
addresses `3`, `4`, `5`, with root `5`. -/
def exHS1 : HeapStore :=
  ⟨[Node.nint 1, Node.nint 2, Node.nlist [0, 1],
    Node.nint 1, Node.nint 2, Node.nlist [3, 4]], [("hosts", 2)]⟩

/-- The store after mutating the returned copy (overwriting its first
element, at address `3`, with `99`) and calling `get("hosts")` again: the
second copy occupies addresses `6`, `7`, `8`, with root `8`. -/
def exHS3 : HeapStore :=
  ⟨[Node.nint 1, Node.nint 2, Node.nlist [0, 1],
    Node.nint 99, Node.nint 2, Node.nlist [3, 4],
    Node.nint 1, Node.nint 2, Node.nlist [6, 7]], [("hosts", 2)]⟩

/-- Claim C5, witness: get the list option `hosts`, overwrite the first
element of the returned copy with `99`, get again — the second result
still denotes `[1, 2]`, the first result's pre-mutation value. -/
theorem get_deepcopy_isolation_witness :
    denote 10 exHS3.heap 8 = denote 10 exHS1.heap 5 :=
  get_deepcopy_isolation exHS "hosts" 2 10 10 10 10 exHS1 5 3 (Node.nint 99)
    exHS3 8 (by decide) (by decide) (by decide) (by decide) (by decide)
    (by decide)

end Optmanager
